import Mathlib

/-!
Verification of the directory-tree generator.

The program walks a file-system subtree and renders it as indented text,
JSON, or XML.  We model the file system as an inductive tree `FS`: a file
carries an optional stat result (`none` models a stat call that raises
`PermissionError`), a directory carries an optional listing (`none` models
`iterdir` raising `PermissionError`/`OSError`).  Each traversal function of
the source is translated into a Lean function over `FS`:

* `walkDirectory`/`walkItems` — `generate_directory_tree.walk_directory`
  (the "basic" format; the inner walker of `method1/directory_tree.py` is
  line-for-line the same function);
* `asciiBuild`/`asciiItems` — `generate_ascii_tree.build_tree`;
* `detailedBuild`/`detailedItems` — `generate_detailed_tree.process_directory`;
* `richBuild`/`richItems` — `create_rich_directory_tree.build_tree`;
* `m2Build`/`m2Items` — `create_rich_directory_tree.build_tree` of
  `method2/directory_tree.py`;
* `directoryToDict`/`dtdChildren` — `directory_to_dict`;
* `saveTreeJsonDoc` — the JSON document written by `save_tree_json`;
* `saveTreeXmlMaxDepthAttr` — the `max_depth` attribute set by `save_tree_xml`.

Python's `sorted` is stable, so it is modelled by a stable insertion sort
(`sortBy`); `str.lower` by `pyLower`; string comparison by the code-point
order `pyStrLt`.  Timestamps are opaque naturals.  Float size formatting
(`f"{size/1024:.1f} KB"` and friends) is not representable exactly, so the
renderers take the formatted text of those branches as an uninterpreted
parameter `fmt`; no theorem below depends on it.
-/

/-- Python code-point `<` on strings (`str.__lt__`), on the character lists. -/
def pyStrLt (a b : List Char) : Bool :=
  match a, b with
  | [], [] => false
  | [], _ :: _ => true
  | _ :: _, [] => false
  | c :: cs, d :: ds =>
    if c.toNat < d.toNat then true
    else if d.toNat < c.toNat then false
    else pyStrLt cs ds

/-- Python `a <= b` on strings, i.e. `not (b < a)`. -/
def pyStrLe (a b : String) : Bool := !(pyStrLt b.data a.data)

/-- Python `str.lower` (agrees with it on ASCII names). -/
def pyLower (s : String) : String := ⟨s.data.map Char.toLower⟩

/-- Python `name.startswith('.')`. -/
def pyHidden (s : String) : Bool :=
  match s.data with
  | [] => false
  | c :: _ => c = '.'

/-- A file-system subtree.  A file's `stat` is `none` when `item.stat()`
raises; a directory's `listing` is `none` when `iterdir` raises. -/
inductive FS where
  | file (name : String) (stat : Option (Nat × Nat))
  | dir (name : String) (mtime : Nat) (listing : Option (List FS))

def FS.name : FS → String
  | .file n _ => n
  | .dir n _ _ => n

/-- `item.is_dir()`. -/
def FS.isDir : FS → Bool
  | .file _ _ => false
  | .dir _ _ _ => true

/-- `item.is_file()`. -/
def FS.isFile : FS → Bool
  | .file _ _ => true
  | .dir _ _ _ => false

/-- Python tuple comparison on a sort key `(bool, str)` (False < True). -/
def keyLe (p q : Bool × String) : Bool :=
  match p.1, q.1 with
  | false, true => true
  | true, false => false
  | _, _ => pyStrLe p.2 q.2

/-- The sort key `lambda x: (not x.is_dir(), x.name.lower())`. -/
def keyOf (f : FS) : Bool × String := (!f.isDir, pyLower f.name)

/-- `sorted(items, key=lambda x: (not x.is_dir(), x.name.lower()))`
compares entries this way. -/
def dirsFirstLe (a b : FS) : Bool := keyLe (keyOf a) (keyOf b)

/-- `sorted(items)` on `Path` objects of one directory compares their
names by code points. -/
def nameLe (a b : FS) : Bool := pyStrLe a.name b.name

/-- Stable insertion into a sorted list (equal keys: the new element,
which came earlier in the original list, stays in front). -/
def insertBy (le : α → α → Bool) (x : α) : List α → List α
  | [] => [x]
  | y :: ys => if le x y then x :: y :: ys else y :: insertBy le x ys

/-- Stable insertion sort; extensionally equal to Python's stable `sorted`
for any total preorder `le`. -/
def sortBy (le : α → α → Bool) : List α → List α
  | [] => []
  | x :: xs => insertBy le x (sortBy le xs)

theorem insertBy_perm (le : α → α → Bool) (x : α) (l : List α) :
    (insertBy le x l).Perm (x :: l) := by
  induction l with
  | nil => simp [insertBy]
  | cons y ys ih =>
    simp only [insertBy]
    split
    · exact List.Perm.refl _
    · exact (ih.cons y).trans (List.Perm.swap x y ys)

theorem sortBy_perm (le : α → α → Bool) (l : List α) : (sortBy le l).Perm l := by
  induction l with
  | nil => simp [sortBy]
  | cons x xs ih => exact (insertBy_perm le x (sortBy le xs)).trans (ih.cons x)

theorem perm_sizeOf_eq [SizeOf α] {l₁ l₂ : List α} (h : l₁.Perm l₂) :
    sizeOf l₁ = sizeOf l₂ := by
  induction h with
  | nil => rfl
  | cons x _ ih => simp [ih]
  | swap x y l => simp; omega
  | trans _ _ ih₁ ih₂ => omega

theorem sizeOf_sortBy (le : α → α → Bool) [SizeOf α] (l : List α) :
    sizeOf (sortBy le l) = sizeOf l :=
  perm_sizeOf_eq (sortBy_perm le l)

theorem mem_sortBy {le : α → α → Bool} {x : α} {l : List α} :
    x ∈ sortBy le l ↔ x ∈ l :=
  (sortBy_perm le l).mem_iff

theorem insertBy_map {le : α → α → Bool} {le' : β → β → Bool} {f : α → β}
    (hf : ∀ a b, le' (f a) (f b) = le a b) (x : α) (l : List α) :
    insertBy le' (f x) (l.map f) = (insertBy le x l).map f := by
  induction l with
  | nil => simp [insertBy]
  | cons y ys ih =>
    simp only [List.map_cons, insertBy, hf]
    split <;> simp [ih]

theorem sortBy_map {le : α → α → Bool} {le' : β → β → Bool} {f : α → β}
    (hf : ∀ a b, le' (f a) (f b) = le a b) (l : List α) :
    sortBy le' (l.map f) = (sortBy le l).map f := by
  induction l with
  | nil => simp [sortBy]
  | cons x xs ih => simp only [List.map_cons, sortBy, ih, insertBy_map hf]

section PyStrOrder

theorem pyStrLt_irrefl (a : List Char) : pyStrLt a a = false := by
  induction a with
  | nil => simp [pyStrLt]
  | cons c cs ih => simp [pyStrLt, ih]

theorem pyStrLt_asymm {a b : List Char} (h : pyStrLt a b = true) :
    pyStrLt b a = false := by
  induction a generalizing b with
  | nil =>
    cases b with
    | nil => simp [pyStrLt] at h
    | cons d ds => simp [pyStrLt]
  | cons c cs ih =>
    cases b with
    | nil => simp [pyStrLt] at h
    | cons d ds =>
      simp only [pyStrLt] at h ⊢
      by_cases h1 : c.toNat < d.toNat
      · have h2 : ¬ d.toNat < c.toNat := by
          intro hc; exact absurd (lt_trans h1 hc) (lt_irrefl _)
        simp [h1, h2]
      · by_cases h2 : d.toNat < c.toNat
        · simp [h1, h2] at h
        · simp [h1, h2] at h ⊢
          exact ih h

theorem pyStrLt_eq_of_not {a b : List Char} (hab : pyStrLt a b = false)
    (hba : pyStrLt b a = false) : a = b := by
  induction a generalizing b with
  | nil =>
    cases b with
    | nil => rfl
    | cons d ds => simp [pyStrLt] at hab
  | cons c cs ih =>
    cases b with
    | nil => simp [pyStrLt] at hba
    | cons d ds =>
      simp only [pyStrLt] at hab hba
      by_cases h1 : c.toNat < d.toNat
      · simp [h1] at hab
      · by_cases h2 : d.toNat < c.toNat
        · simp [h1, h2] at hba
        · simp [h1, h2] at hab hba
          have hv : c.toNat = d.toNat := Nat.le_antisymm (Nat.not_lt.mp h2) (Nat.not_lt.mp h1)
          have hcd : c = d := Char.ext (UInt32.toNat.inj hv)
          rw [hcd, ih hab hba]

theorem pyStrLt_trans {a b c : List Char} (h1 : pyStrLt a b = true)
    (h2 : pyStrLt b c = true) : pyStrLt a c = true := by
  induction a generalizing b c with
  | nil =>
    cases b with
    | nil => simp [pyStrLt] at h1
    | cons d ds =>
      cases c with
      | nil => simp [pyStrLt] at h2
      | cons e es => simp [pyStrLt]
  | cons x xs ih =>
    cases b with
    | nil => simp [pyStrLt] at h1
    | cons d ds =>
      cases c with
      | nil => simp [pyStrLt] at h2
      | cons e es =>
        simp only [pyStrLt] at h1 h2 ⊢
        by_cases hxd : x.toNat < d.toNat
        · by_cases hde : d.toNat < e.toNat
          · have : x.toNat < e.toNat := lt_trans hxd hde
            simp [this]
          · by_cases hed : e.toNat < d.toNat
            · simp [hde, hed] at h2
            · have hde' : d.toNat = e.toNat := Nat.le_antisymm (Nat.not_lt.mp hed) (Nat.not_lt.mp hde)
              simp [hde' ▸ hxd]
        · by_cases hdx : d.toNat < x.toNat
          · simp [hxd, hdx] at h1
          · have hxd' : x.toNat = d.toNat := Nat.le_antisymm (Nat.not_lt.mp hdx) (Nat.not_lt.mp hxd)
            simp only [hxd, hdx, if_false, if_neg] at h1
            by_cases hde : d.toNat < e.toNat
            · simp [hxd' ▸ hde]
            · by_cases hed : e.toNat < d.toNat
              · simp [hde, hed] at h2
              · simp only [hde, hed, if_false, if_neg] at h2
                have h1' : pyStrLt xs ds = true := by
                  simpa [hxd, hdx] using h1
                have h2' : pyStrLt ds es = true := by
                  simpa [hde, hed] using h2
                have hxe : ¬ x.toNat < e.toNat := by
                  rw [hxd']; exact hde
                have hex : ¬ e.toNat < x.toNat := by
                  rw [hxd']; exact hed
                simp [hxe, hex, ih h1' h2']

theorem pyStrLe_total (a b : String) : pyStrLe a b = true ∨ pyStrLe b a = true := by
  by_cases h : pyStrLt b.data a.data = true
  · right
    simp only [pyStrLe, pyStrLt_asymm h, Bool.not_false]
  · left
    simp only [pyStrLe, Bool.not_eq_true] at h ⊢
    simp [h]

theorem pyStrLe_trans {a b c : String} (h1 : pyStrLe a b = true)
    (h2 : pyStrLe b c = true) : pyStrLe a c = true := by
  have h1' : pyStrLt b.data a.data = false := by
    simpa [pyStrLe] using h1
  have h2' : pyStrLt c.data b.data = false := by
    simpa [pyStrLe] using h2
  simp only [pyStrLe, Bool.not_eq_true']
  by_cases hca : pyStrLt c.data a.data = true
  · exfalso
    by_cases hbc : pyStrLt b.data c.data = true
    · exact absurd (pyStrLt_trans hbc hca) (by simp [h1'])
    · have hbc' : pyStrLt b.data c.data = false := by simpa using hbc
      have heq : b.data = c.data := pyStrLt_eq_of_not hbc' h2'
      rw [← heq] at hca
      simp [hca] at h1'
  · simpa using hca

end PyStrOrder

theorem keyLe_total (p q : Bool × String) : keyLe p q = true ∨ keyLe q p = true := by
  obtain ⟨b1, s1⟩ := p
  obtain ⟨b2, s2⟩ := q
  cases b1 <;> cases b2 <;> simp [keyLe] <;> exact pyStrLe_total _ _

theorem keyLe_trans {p q r : Bool × String} (h1 : keyLe p q = true)
    (h2 : keyLe q r = true) : keyLe p r = true := by
  obtain ⟨b1, s1⟩ := p
  obtain ⟨b2, s2⟩ := q
  obtain ⟨b3, s3⟩ := r
  cases b1 <;> cases b2 <;> cases b3 <;> simp_all [keyLe]
  · exact pyStrLe_trans h1 h2
  · exact pyStrLe_trans h1 h2

theorem dirsFirstLe_total (a b : FS) : dirsFirstLe a b = true ∨ dirsFirstLe b a = true :=
  keyLe_total _ _

theorem dirsFirstLe_trans {a b c : FS} (h1 : dirsFirstLe a b = true)
    (h2 : dirsFirstLe b c = true) : dirsFirstLe a c = true :=
  keyLe_trans h1 h2

theorem nameLe_total (a b : FS) : nameLe a b = true ∨ nameLe b a = true :=
  pyStrLe_total _ _

theorem insertBy_pairwise {le : α → α → Bool}
    (htot : ∀ a b, le a b = true ∨ le b a = true)
    (htrans : ∀ {a b c}, le a b = true → le b c = true → le a c = true)
    (x : α) {l : List α} (hl : List.Pairwise (fun a b => le a b = true) l) :
    List.Pairwise (fun a b => le a b = true) (insertBy le x l) := by
  induction l with
  | nil => simp [insertBy]
  | cons y ys ih =>
    simp only [insertBy]
    by_cases hxy : le x y = true
    · simp only [hxy, if_true]
      refine List.Pairwise.cons ?_ hl
      intro z hz
      rcases List.mem_cons.mp hz with rfl | hz
      · exact hxy
      · exact htrans hxy (List.rel_of_pairwise_cons hl hz)
    · simp only [hxy, if_false]
      have hyx : le y x = true := (htot x y).resolve_left hxy
      cases hl with
      | cons hy hys =>
        refine List.Pairwise.cons ?_ (ih hys)
        intro z hz
        rcases List.mem_cons.mp ((insertBy_perm le x ys).mem_iff.mp hz) with rfl | hz
        · exact hyx
        · exact hy z hz

theorem sortBy_pairwise {le : α → α → Bool}
    (htot : ∀ a b, le a b = true ∨ le b a = true)
    (htrans : ∀ {a b c}, le a b = true → le b c = true → le a c = true)
    (l : List α) : List.Pairwise (fun a b => le a b = true) (sortBy le l) := by
  induction l with
  | nil => simp [sortBy]
  | cons x xs ih => exact insertBy_pairwise htot htrans x ih

/-! ## Depth guards

`max_depth is not None and depth > max_depth` (basic, ascii, detailed,
enhanced walks) and `max_depth is not None and current_depth >= max_depth`
(rich walk, `directory_to_dict`). -/

def depthExceeded (maxDepth : Option Nat) (depth : Nat) : Bool :=
  match maxDepth with
  | some d => depth > d
  | none => false

def depthLimited (maxDepth : Option Nat) (currentDepth : Nat) : Bool :=
  match maxDepth with
  | some d => currentDepth ≥ d
  | none => false

/-! ## Method 1 — `generate_directory_tree.walk_directory`

The walker of the "basic" format (`directory_tree_generator.py` lines
36–53; the walker of `method1/directory_tree.py` is identical).  It sorts
siblings with plain `sorted(items)`, emits one line per entry, and recurses
into directories with the prefix extended by four spaces or a bar. -/

mutual
def walkDirectory (listing : Option (List FS)) (pfx : String) (depth : Nat)
    (maxDepth : Option Nat) : List String :=
  if depthExceeded maxDepth depth then []
  else
    match listing with
    | none => [pfx ++ "└── [Permission Denied]"]
    | some items => walkItems (sortBy nameLe items) pfx depth maxDepth
termination_by (sizeOf listing, 0)
decreasing_by
  simp [sizeOf_sortBy]; omega

def walkItems (items : List FS) (pfx : String) (depth : Nat)
    (maxDepth : Option Nat) : List String :=
  match items with
  | [] => []
  | .dir n m l :: rest =>
    (pfx ++ (if rest.isEmpty then "└── " else "├── ") ++ n) ::
      (walkDirectory l (pfx ++ (if rest.isEmpty then "    " else "│   "))
          (depth + 1) maxDepth
        ++ walkItems rest pfx depth maxDepth)
  | .file n st :: rest =>
    (pfx ++ (if rest.isEmpty then "└── " else "├── ") ++ n) ::
      walkItems rest pfx depth maxDepth
termination_by (sizeOf items, 1)
decreasing_by
  all_goals simp <;> omega
end

/-- `generate_directory_tree` root handling: `start_path.exists()` is
checked first and `FileNotFoundError` raised when it fails; otherwise the
walk runs.  A root is `none` when the path does not exist, otherwise its
`mtime` and `listing`. -/
def generateDirectoryTree (root : Option (Nat × Option (List FS)))
    (maxDepth : Option Nat) : Except String (List String) :=
  match root with
  | none => .error "Directory not found"
  | some (_, listing) => .ok (walkDirectory listing "" 0 maxDepth)

/-! ## Method 5 — `directory_to_dict` (JSON/XML walks) -/

/-- One entry of the dictionary tree built by `directory_to_dict`:
a directory dict (`name`/`path`/`type`/`size`/`modified`/`children`),
a file dict (`name`/`path`/`type`/`size`/`modified`), the
`{'name':…, 'type':'file', 'error':'Permission denied'}` dict produced
when a file's stat fails, or the bare `{'error':'Permission denied'}`
dict produced when a listing fails. -/
inductive JNode where
  | dir (name path : String) (size : Nat) (modified : Nat) (children : List JNode)
  | file (name path : String) (size : Nat) (modified : Nat)
  | errFile (name : String)
  | errMarker

/-- `child_dict['size']` (0 when the dict has no `size` key). -/
def jsize : JNode → Nat
  | .dir _ _ s _ _ => s
  | .file _ _ s _ => s
  | _ => 0

mutual
/-- `directory_to_dict(path, max_depth, current_depth)` for an existing
directory with base name `name`, stat mtime `mtime` and listing `listing`
(recursive calls are always on existing directories). -/
def directoryToDict (name : String) (mtime : Nat) (listing : Option (List FS))
    (path : String) (maxDepth : Option Nat) (currentDepth : Nat) : JNode :=
  if depthLimited maxDepth currentDepth then
    .dir name path 0 mtime []
  else
    match listing with
    | none => .dir name path 0 mtime [.errMarker]
    | some items =>
      let r := dtdChildren (sortBy dirsFirstLe items) path maxDepth currentDepth
      .dir name path r.2 mtime r.1
termination_by (sizeOf listing, 0)
decreasing_by
  simp [sizeOf_sortBy]; omega

/-- The `for item in sorted(items, …)` loop: builds `d['children']` and
accumulates `d['size']`. -/
def dtdChildren (items : List FS) (parentPath : String)
    (maxDepth : Option Nat) (currentDepth : Nat) : List JNode × Nat :=
  match items with
  | [] => ([], 0)
  | item :: rest =>
    let hd : List JNode × Nat :=
      match item with
      | .dir n m l =>
        let c := directoryToDict n m l (parentPath ++ "/" ++ n) maxDepth (currentDepth + 1)
        ([c], jsize c)
      | .file n (some st) => ([JNode.file n (parentPath ++ "/" ++ n) st.1 st.2], st.1)
      | .file n none => ([JNode.errFile n], 0)
    let r := dtdChildren rest parentPath maxDepth currentDepth
    (hd.1 ++ r.1, hd.2 + r.2)
termination_by (sizeOf items, 1)
decreasing_by
  · simp; omega
  · simp; omega
end

/-- `directory_to_dict` evaluated on a path that does not exist (reachable
from `save_tree_json`/`save_tree_xml`, which never check existence):
`path.exists()` is false so `modified` is 0, and `path.iterdir()` raises
`FileNotFoundError`, an `OSError`, which the
`except (PermissionError, OSError)` handler turns into a
`[{'error': 'Permission denied'}]` children list — unless the depth guard
returns first with `children = []`. -/
def directoryToDictMissing (name path : String) (maxDepth : Option Nat) : JNode :=
  if depthLimited maxDepth 0 then .dir name path 0 0 []
  else .dir name path 0 0 [.errMarker]

theorem sizeOf_filter_le [SizeOf α] (p : α → Bool) (l : List α) :
    sizeOf (l.filter p) ≤ sizeOf l := by
  induction l with
  | nil => simp
  | cons x xs ih =>
    rw [List.filter_cons]
    split <;> simp <;> omega

/-! ## Method 2 — `generate_ascii_tree.build_tree` -/

/-- `[item for item in items if not item.name.startswith('.')]`, applied
when `show_hidden` is false. -/
def hiddenFilter (showHidden : Bool) (items : List FS) : List FS :=
  if showHidden then items else items.filter (fun it => !pyHidden it.name)

/-- The connector chosen by `generate_ascii_tree.build_tree` (also by
`generate_detailed_tree` and `generate_enhanced_tree`): it depends on
whether the entry is first in its listing (`i == 0`) and on the `is_last`
flag passed down from the parent, not on the entry's own last-sibling
flag. -/
def asciiConnector (i : Nat) (isLast : Bool) : String :=
  if i == 0 then (if isLast then "└── " else "├── ")
  else (if isLast then "    " else "│   ")

/-- The `({dir_files}f, {dir_subdirs}d)` / `(?)` suffix of a directory
line in `generate_ascii_tree`. -/
def asciiCountInfo (showHidden : Bool) (listing : Option (List FS)) : String :=
  match listing with
  | some l =>
    let dl := hiddenFilter showHidden l
    "/ (" ++ toString (dl.countP FS.isFile) ++ "f, "
      ++ toString (dl.countP FS.isDir) ++ "d)"
  | none => "/ (?)"

/-- The size text of a file line in `generate_ascii_tree`: `"empty"` for 0,
`f"{size} B"` below 1024, and float-formatted KB/MB/GB text (modelled by
the uninterpreted `fmt`) from 1024 up. -/
def asciiSizeStr (fmt : Nat → String) (size : Nat) : String :=
  if size == 0 then "empty"
  else if size < 1024 then toString size ++ " B"
  else fmt size

/-- A text walk's output: the emitted lines together with the
`total_dirs`/`total_files`/`total_size` counters. -/
structure WalkOut where
  lines : List String
  dirs : Nat
  files : Nat
  size : Nat

/-- The contribution of a directory entry: its line, the subtree walk
`sub`, then the remaining siblings `r` (the directory counter is
incremented before recursion). -/
def dirStep (line : String) (sub r : WalkOut) : WalkOut :=
  ⟨line :: (sub.lines ++ r.lines), 1 + sub.dirs + r.dirs,
    sub.files + r.files, sub.size + r.size⟩

/-- The contribution of a file entry: its line and the remaining siblings;
the file counter is incremented whether or not the stat succeeded, and
`sz` is 0 on a failed stat. -/
def fileStep (line : String) (sz : Nat) (r : WalkOut) : WalkOut :=
  ⟨line :: r.lines, r.dirs, 1 + r.files, sz + r.size⟩

mutual
def asciiBuild (fmt : Nat → String) (showHidden : Bool) (maxDepth : Option Nat)
    (listing : Option (List FS)) (pfx : String) (isLast : Bool) (depth : Nat) : WalkOut :=
  if depthExceeded maxDepth depth then ⟨[], 0, 0, 0⟩
  else
    match listing with
    | none => ⟨[pfx ++ "└── [Permission Denied]"], 0, 0, 0⟩
    | some items =>
      asciiItems fmt showHidden maxDepth
        (sortBy dirsFirstLe (hiddenFilter showHidden items)) pfx isLast depth 0
termination_by (sizeOf listing, 0)
decreasing_by
  simp only [sizeOf_sortBy, hiddenFilter]
  split
  · simp; omega
  · have := sizeOf_filter_le (fun it => !pyHidden it.name) items
    simp; omega

def asciiItems (fmt : Nat → String) (showHidden : Bool) (maxDepth : Option Nat)
    (items : List FS) (pfx : String) (isLast : Bool) (depth : Nat) (i : Nat) : WalkOut :=
  match items with
  | [] => ⟨[], 0, 0, 0⟩
  | .dir n _ l :: rest =>
    dirStep (pfx ++ asciiConnector i isLast ++ "[D] " ++ n ++ asciiCountInfo showHidden l)
      (asciiBuild fmt showHidden maxDepth l
        (pfx ++ (if isLast then "    " else "│   ")) rest.isEmpty (depth + 1))
      (asciiItems fmt showHidden maxDepth rest pfx isLast depth (i + 1))
  | .file n st :: rest =>
    fileStep (pfx ++ asciiConnector i isLast ++ "[F] " ++ n ++
        (match st with
         | some s => " (" ++ asciiSizeStr fmt s.1 ++ ")"
         | none => " (access denied)"))
      (match st with | some s => s.1 | none => 0)
      (asciiItems fmt showHidden maxDepth rest pfx isLast depth (i + 1))
termination_by (sizeOf items, 1)
decreasing_by
  all_goals simp <;> omega
end

/-- `generate_ascii_tree` root handling: existence checked first,
`FileNotFoundError` raised on failure, then `build_tree(start_path)`
(prefix `""`, `is_last=True`, depth 0). -/
def generateAsciiTree (fmt : Nat → String) (root : Option (Nat × Option (List FS)))
    (showHidden : Bool) (maxDepth : Option Nat) : Except String WalkOut :=
  match root with
  | none => .error "Directory not found"
  | some (_, listing) => .ok (asciiBuild fmt showHidden maxDepth listing "" true 0)

/-! ## Method 4 — `generate_detailed_tree.process_directory` -/

/-- The `({n} files, {n} dirs)` / `[?]` suffix of a directory line in
`generate_detailed_tree`. -/
def detailedCountInfo (showHidden : Bool) (listing : Option (List FS)) : String :=
  match listing with
  | some l =>
    let dl := hiddenFilter showHidden l
    " (" ++ toString (dl.countP FS.isFile) ++ " files, "
      ++ toString (dl.countP FS.isDir) ++ " dirs)"
  | none => " [?]"

/-- The size text of a file line in `generate_detailed_tree`:
float-formatted above 1024 (uninterpreted `fmt`), else `f" ({size} bytes)"`. -/
def detailedSizeStr (fmt : Nat → String) (size : Nat) : String :=
  if size > 1024 then fmt size else " (" ++ toString size ++ " bytes)"

mutual
def detailedBuild (fmt : Nat → String) (showHidden : Bool) (maxDepth : Option Nat)
    (listing : Option (List FS)) (pfx : String) (isLast : Bool) (depth : Nat) : WalkOut :=
  if depthExceeded maxDepth depth then ⟨[], 0, 0, 0⟩
  else
    match listing with
    | none => ⟨[pfx ++ "└── 🔒 [Permission Denied]"], 0, 0, 0⟩
    | some items =>
      detailedItems fmt showHidden maxDepth
        (sortBy dirsFirstLe (hiddenFilter showHidden items)) pfx isLast depth 0
termination_by (sizeOf listing, 0)
decreasing_by
  simp only [sizeOf_sortBy, hiddenFilter]
  split
  · simp; omega
  · have := sizeOf_filter_le (fun it => !pyHidden it.name) items
    simp; omega

def detailedItems (fmt : Nat → String) (showHidden : Bool) (maxDepth : Option Nat)
    (items : List FS) (pfx : String) (isLast : Bool) (depth : Nat) (i : Nat) : WalkOut :=
  match items with
  | [] => ⟨[], 0, 0, 0⟩
  | .dir n _ l :: rest =>
    dirStep (pfx ++ asciiConnector i isLast ++ "📁 " ++ n ++ detailedCountInfo showHidden l)
      (detailedBuild fmt showHidden maxDepth l
        (pfx ++ (if isLast then "    " else "│   ")) rest.isEmpty (depth + 1))
      (detailedItems fmt showHidden maxDepth rest pfx isLast depth (i + 1))
  | .file n st :: rest =>
    fileStep (pfx ++ asciiConnector i isLast ++ "📄 " ++ n ++
        (match st with
         | some s => detailedSizeStr fmt s.1
         | none => ""))
      (match st with | some s => s.1 | none => 0)
      (detailedItems fmt showHidden maxDepth rest pfx isLast depth (i + 1))
termination_by (sizeOf items, 1)
decreasing_by
  all_goals simp <;> omega
end

/-! ## Method 3 — the rich walks

Node structure of the `rich` trees.  Label decoration (markup, counts,
float-formatted sizes) is abstracted away; only the shape, names, and the
two sentinel labels `"... (depth limited)"` and `"[Permission Denied]"`
matter to the claims. -/

inductive RNode where
  | dirNode (name : String) (children : List RNode)
  | fileNode (name : String)
  | depthLimitedMarker
  | deniedMarker

mutual
/-- `create_rich_directory_tree.build_tree` of the main file (lines
291–341): on `current_depth >= max_depth` it adds a
`"... (depth limited)"` child and returns; a listing failure adds a
`"[Permission Denied]"` child; a file's stat failure only changes the
label (handled inside its own try/except). -/
def richBuild (maxDepth : Option Nat) (listing : Option (List FS))
    (currentDepth : Nat) : List RNode :=
  if depthLimited maxDepth currentDepth then [.depthLimitedMarker]
  else
    match listing with
    | none => [.deniedMarker]
    | some items => richItems maxDepth (sortBy dirsFirstLe items) currentDepth
termination_by (sizeOf listing, 0)
decreasing_by
  simp [sizeOf_sortBy]; omega

def richItems (maxDepth : Option Nat) (items : List FS) (currentDepth : Nat) :
    List RNode :=
  match items with
  | [] => []
  | .dir n _ l :: rest =>
    .dirNode n (richBuild maxDepth l (currentDepth + 1)) :: richItems maxDepth rest currentDepth
  | .file n _ :: rest => .fileNode n :: richItems maxDepth rest currentDepth
termination_by (sizeOf items, 1)
decreasing_by
  · simp; omega
  · simp; omega
  · simp; omega
end

mutual
/-- `create_rich_directory_tree.build_tree` of `method2/directory_tree.py`:
on `current_depth >= max_depth` it returns silently; `item.stat()` is
called with no per-file handler, so a stat failure raises
`PermissionError` out of the `for` loop into this level's `except`, which
adds one `"[Permission Denied]"` node — abandoning the remaining entries
of the listing. -/
def m2Build (maxDepth : Option Nat) (listing : Option (List FS))
    (currentDepth : Nat) : List RNode :=
  if depthLimited maxDepth currentDepth then []
  else
    match listing with
    | none => [.deniedMarker]
    | some items => m2Items maxDepth (sortBy dirsFirstLe items) currentDepth
termination_by (sizeOf listing, 0)
decreasing_by
  simp [sizeOf_sortBy]; omega

def m2Items (maxDepth : Option Nat) (items : List FS) (currentDepth : Nat) :
    List RNode :=
  match items with
  | [] => []
  | .dir n _ l :: rest =>
    .dirNode n (m2Build maxDepth l (currentDepth + 1)) :: m2Items maxDepth rest currentDepth
  | .file n (some _) :: rest => .fileNode n :: m2Items maxDepth rest currentDepth
  | .file _ none :: _ => [.deniedMarker]
termination_by (sizeOf items, 1)
decreasing_by
  · simp; omega
  · simp; omega
  · simp; omega
end

/-! ## `save_tree_json` — the JSON document and its re-parse -/

/-- JSON values (what `json.dump` writes and `json.loads` reads back). -/
inductive JVal where
  | str (s : String)
  | num (n : Nat)
  | jnull
  | arr (elems : List JVal)
  | obj (fields : List (String × JVal))

mutual
/-- The JSON object `json.dump` writes for one dict of the
`directory_to_dict` tree, keys in dict insertion order. -/
def jnodeToJVal : JNode → JVal
  | .dir n p s m ch =>
    .obj [("name", .str n), ("path", .str p), ("type", .str "directory"),
          ("size", .num s), ("modified", .num m), ("children", .arr (jlistToJVal ch))]
  | .file n p s m =>
    .obj [("name", .str n), ("path", .str p), ("type", .str "file"),
          ("size", .num s), ("modified", .num m)]
  | .errFile n =>
    .obj [("name", .str n), ("type", .str "file"), ("error", .str "Permission denied")]
  | .errMarker => .obj [("error", .str "Permission denied")]

def jlistToJVal : List JNode → List JVal
  | [] => []
  | x :: xs => jnodeToJVal x :: jlistToJVal xs
end

/-- `max_depth` as serialized into the metadata (`None` → JSON null). -/
def optNatToJVal : Option Nat → JVal
  | none => .jnull
  | some d => .num d

/-- The full document written by `save_tree_json`: the root dict of
`directory_to_dict` with the `metadata` key appended
(`tree_dict['metadata'] = {...}` inserts it after the existing keys). -/
def saveTreeJsonDoc (generated sourcePath : String) (maxDepth : Option Nat)
    (t : JNode) : JVal :=
  match jnodeToJVal t with
  | .obj fields =>
    .obj (fields ++ [("metadata",
      .obj [("generated", .str generated), ("source_path", .str sourcePath),
            ("max_depth", optNatToJVal maxDepth)])])
  | v => v

/-- `save_tree_json` end to end: walk (no existence check — a missing root
falls through to `directory_to_dict`), metadata, document. -/
def saveTreeJson (generated pathName sourcePath : String)
    (root : Option (Nat × Option (List FS))) (maxDepth : Option Nat) : JVal :=
  let tree :=
    match root with
    | some (m, l) => directoryToDict pathName m l sourcePath maxDepth 0
    | none => directoryToDictMissing pathName sourcePath maxDepth
  saveTreeJsonDoc generated sourcePath maxDepth tree

/-- First value stored under key `k` (dict keys are unique). -/
def getField (fields : List (String × JVal)) (k : String) : Option JVal :=
  match fields with
  | [] => none
  | (k', v) :: rest => if k' == k then some v else getField rest k

theorem getField_sizeOf {fields : List (String × JVal)} {k : String} {v : JVal}
    (h : getField fields k = some v) : sizeOf v < sizeOf (JVal.obj fields) := by
  induction fields with
  | nil => simp [getField] at h
  | cons f rest ih =>
    obtain ⟨k', v'⟩ := f
    simp only [getField] at h
    by_cases hk : (k' == k) = true
    · simp only [hk, if_true, Option.some.injEq] at h
      subst h
      simp
      omega
    · simp only [hk, if_false] at h
      have := ih h
      simp at this ⊢
      omega

mutual
/-- Reads a re-parsed JSON value back into a `JNode`, ignoring keys that
carry no tree structure (`path` is read since the tree dicts carry it,
`modified` likewise; unknown keys such as `metadata` are ignored). -/
def parseJNode (v : JVal) : Option JNode :=
  match v with
  | .obj fields =>
    match getField fields "error" with
    | some _ =>
      match getField fields "name" with
      | some (.str n) => some (.errFile n)
      | _ => some .errMarker
    | none =>
      match getField fields "type", getField fields "name", getField fields "path" with
      | some (.str "directory"), some (.str n), some (.str p) =>
        (match hc : getField fields "children" with
         | some (.arr ch) =>
           (match getField fields "size", getField fields "modified",
                  parseJList ch with
            | some (.num s), some (.num m), some ns => some (.dir n p s m ns)
            | _, _, _ => none)
         | _ => none)
      | some (.str "file"), some (.str n), some (.str p) =>
        (match getField fields "size", getField fields "modified" with
         | some (.num s), some (.num m) => some (.file n p s m)
         | _, _ => none)
      | _, _, _ => none
  | _ => none
termination_by sizeOf v
decreasing_by
  have := getField_sizeOf hc
  simp at this ⊢
  omega

def parseJList (vs : List JVal) : Option (List JNode) :=
  match vs with
  | [] => some []
  | v :: rest =>
    match parseJNode v, parseJList rest with
    | some n, some ns => some (n :: ns)
    | _, _ => none
termination_by sizeOf vs
decreasing_by
  all_goals simp <;> omega
end

/-! ## `save_tree_xml` — the `max_depth` attribute -/

/-- `root.set('max_depth', str(max_depth) if max_depth else 'unlimited')`:
Python truthiness makes both `None` and `0` take the `'unlimited'`
branch. -/
def saveTreeXmlMaxDepthAttr (maxDepth : Option Nat) : String :=
  match maxDepth with
  | none => "unlimited"
  | some d => if d == 0 then "unlimited" else toString d

/-! ## Specification-side definitions

These follow the spec's wording; theorems compare them with the
source-translated walks above. -/

mutual
/-- Spec §3: the sum of the sizes of all File-kind descendants of a node,
with inaccessible descendants contributing zero. -/
def sumFilesJ : JNode → Nat
  | .dir _ _ _ _ ch => sumFilesJL ch
  | .file _ _ s _ => s
  | .errFile _ => 0
  | .errMarker => 0

def sumFilesJL : List JNode → Nat
  | [] => 0
  | x :: xs => sumFilesJ x + sumFilesJL xs
end

mutual
/-- Spec §3 invariant, decidably: every directory node's `size` equals the
sum of sizes of its File-kind descendants. -/
def sizeInvB : JNode → Bool
  | .dir _ _ s _ ch => (s == sumFilesJL ch) && sizeInvL ch
  | _ => true

def sizeInvL : List JNode → Bool
  | [] => true
  | x :: xs => sizeInvB x && sizeInvL xs
end

/-- The sort key of a produced node (`type`, lowered name), mirroring
`keyOf` on the file system. -/
def jkey : JNode → Bool × String
  | .dir n _ _ _ _ => (false, pyLower n)
  | .file n _ _ _ => (true, pyLower n)
  | .errFile n => (true, pyLower n)
  | .errMarker => (true, "")

/-- Sibling order on produced nodes: directories before files, then
case-insensitive name order. -/
def jLe (a b : JNode) : Bool := keyLe (jkey a) (jkey b)

mutual
/-- All `children` lists occurring in a produced tree. -/
def jchildrenLists : JNode → List (List JNode)
  | .dir _ _ _ _ ch => ch :: jchildrenListsL ch
  | _ => []

def jchildrenListsL : List JNode → List (List JNode)
  | [] => []
  | x :: xs => jchildrenLists x ++ jchildrenListsL xs
end

mutual
/-- Removes hidden entries (names starting with `.`) at every level —
the tree a walk with `includeHidden = false` is supposed to see. -/
def pruneF : FS → FS
  | .file n st => .file n st
  | .dir n m none => .dir n m none
  | .dir n m (some l) => .dir n m (some (pruneL l))

def pruneL : List FS → List FS
  | [] => []
  | x :: xs => if pyHidden x.name then pruneL xs else pruneF x :: pruneL xs
end

/-- Prune applied to a directory listing. -/
def pruneO : Option (List FS) → Option (List FS) := Option.map pruneL

/-- Componentwise sum of `(dirs, files, bytes)` triples. -/
def addT (a b : Nat × Nat × Nat) : Nat × Nat × Nat :=
  (a.1 + b.1, a.2.1 + b.2.1, a.2.2 + b.2.2)

mutual
/-- Spec §4.4-style aggregates of the subtree a walk visits under hidden
policy `sh` and no depth bound: every visited directory counts once
(including inaccessible ones, which the text walks count before listing),
every visited file counts once even when its stat fails, and bytes sum the
sizes of stat-successful files only. -/
def totalsF (sh : Bool) : FS → Nat × Nat × Nat
  | .file _ st => (0, 1, match st with | some s => s.1 | none => 0)
  | .dir _ _ none => (1, 0, 0)
  | .dir _ _ (some l) => addT (1, 0, 0) (totalsL sh (hiddenFilter sh l))
termination_by fs => (sizeOf fs, 0)
decreasing_by
  have := sizeOf_filter_le (fun it => !pyHidden it.name) l
  simp [hiddenFilter]
  split <;> omega

def totalsL (sh : Bool) : List FS → Nat × Nat × Nat
  | [] => (0, 0, 0)
  | x :: xs => addT (totalsF sh x) (totalsL sh xs)
termination_by l => (sizeOf l, 1)
decreasing_by
  · simp; omega
  · simp; omega
end

/-- Aggregates of a walk starting from a listing. -/
def totalsO (sh : Bool) : Option (List FS) → Nat × Nat × Nat
  | none => (0, 0, 0)
  | some l => totalsL sh (hiddenFilter sh l)

/-- The prefix the spec prescribes for a node whose ancestors' last-sibling
flags are `flags` (outermost first): four spaces for a last sibling,
vertical-bar-and-spaces otherwise (spec §4.5). -/
def pfxOfFlags : List Bool → String
  | [] => ""
  | b :: bs => (if b then "    " else "│   ") ++ pfxOfFlags bs

mutual
/-- Spec-style renderer for the basic text format: instead of threading a
prefix string it carries the ancestors' last-sibling flags and recomputes
the prefix from them; the connector is the corner glyph exactly for a last
sibling.  `basicPrefixLaw` proves it coincides with `walkDirectory`. -/
def specWalkDir (listing : Option (List FS)) (flags : List Bool) (depth : Nat)
    (maxDepth : Option Nat) : List String :=
  if depthExceeded maxDepth depth then []
  else
    match listing with
    | none => [pfxOfFlags flags ++ "└── [Permission Denied]"]
    | some items => specWalkItems (sortBy nameLe items) flags depth maxDepth
termination_by (sizeOf listing, 0)
decreasing_by
  simp [sizeOf_sortBy]; omega

def specWalkItems (items : List FS) (flags : List Bool) (depth : Nat)
    (maxDepth : Option Nat) : List String :=
  match items with
  | [] => []
  | .dir n m l :: rest =>
    (pfxOfFlags flags ++ (if rest.isEmpty then "└── " else "├── ") ++ n) ::
      (specWalkDir l (flags ++ [rest.isEmpty]) (depth + 1) maxDepth
        ++ specWalkItems rest flags depth maxDepth)
  | .file n st :: rest =>
    (pfxOfFlags flags ++ (if rest.isEmpty then "└── " else "├── ") ++ n) ::
      specWalkItems rest flags depth maxDepth
termination_by (sizeOf items, 1)
decreasing_by
  all_goals simp <;> omega
end

/-- One level of the basic walk: each entry yields one line and nothing
deeper (what the walk produces at the depth limit). -/
def basicLevelLines (pfx : String) : List FS → List String
  | [] => []
  | item :: rest =>
    (pfx ++ (if rest.isEmpty then "└── " else "├── ") ++ item.name) ::
      basicLevelLines pfx rest

/-- The block of lines one entry contributes to the basic walk: its own
line followed by its subtree's lines. -/
def basicItemLines (pfx : String) (depth : Nat) (maxDepth : Option Nat)
    (isLast : Bool) (item : FS) : List String :=
  (pfx ++ (if isLast then "└── " else "├── ") ++ item.name) ::
    (match item with
     | .dir _ _ l =>
       walkDirectory l (pfx ++ (if isLast then "    " else "│   ")) (depth + 1) maxDepth
     | .file _ _ => [])

/-- An entry whose processing in the method-2 rich walk cannot raise:
anything but a file with a failing stat. -/
def m2Ok : FS → Bool
  | .file _ none => false
  | _ => true

/-- The node one non-raising entry contributes to the method-2 rich walk. -/
def m2ItemNode (maxDepth : Option Nat) (currentDepth : Nat) : FS → RNode
  | .dir n _ l => .dirNode n (m2Build maxDepth l (currentDepth + 1))
  | .file n _ => .fileNode n

/-- The tree produced by `save_tree_json` before metadata is attached. -/
def jsonWalkTree (pathName : String) (root : Option (Nat × Option (List FS)))
    (sourcePath : String) (maxDepth : Option Nat) : JNode :=
  match root with
  | some (m, l) => directoryToDict pathName m l sourcePath maxDepth 0
  | none => directoryToDictMissing pathName sourcePath maxDepth

/-! ## Support lemmas -/

theorem saveTreeJson_eq_doc (g pn sp : String) (root : Option (Nat × Option (List FS)))
    (md : Option Nat) :
    saveTreeJson g pn sp root md = saveTreeJsonDoc g sp md (jsonWalkTree pn root sp md) := by
  cases root with
  | none => rfl
  | some r => rfl

theorem parse_jnodeToJVal (t : JNode) : parseJNode (jnodeToJVal t) = some t := by
  have H := jnodeToJVal.induct (fun t => parseJNode (jnodeToJVal t) = some t)
    (fun ts => parseJList (jlistToJVal ts) = some ts)
  apply H <;> intros <;>
    simp_all [jnodeToJVal, jlistToJVal, parseJNode, parseJList, getField]

theorem parse_jlistToJVal (ts : List JNode) : parseJList (jlistToJVal ts) = some ts := by
  induction ts with
  | nil => simp [jlistToJVal, parseJList]
  | cons x xs ih => simp [jlistToJVal, parseJList, parse_jnodeToJVal x, ih]

theorem parse_saveTreeJsonDoc (g sp : String) (md : Option Nat) (t : JNode) :
    parseJNode (saveTreeJsonDoc g sp md t) = some t := by
  cases t with
  | dir n p s m ch =>
    simp [saveTreeJsonDoc, jnodeToJVal, parseJNode, getField, parse_jlistToJVal ch]
  | file n p s m => simp [saveTreeJsonDoc, jnodeToJVal, parseJNode, getField]
  | errFile n => simp [saveTreeJsonDoc, jnodeToJVal, parseJNode, getField]
  | errMarker => simp [saveTreeJsonDoc, jnodeToJVal, parseJNode, getField]

/-! ## Claims -/

/-- C8: for every walk result, rendering it to JSON (`save_tree_json`'s
document: the `directory_to_dict` dict with `metadata` appended) and
re-parsing the document yields a tree isomorphic to the original node
tree — indeed the very same tree: same names, same `type` discriminators,
same sizes, same child order. -/
theorem c8_json_round_trip (g pn sp : String) (root : Option (Nat × Option (List FS)))
    (md : Option Nat) :
    parseJNode (saveTreeJson g pn sp root md) = some (jsonWalkTree pn root sp md) := by
  rw [saveTreeJson_eq_doc]
  exact parse_saveTreeJsonDoc g sp md _

/-- C10: `save_tree_xml` sets the root element's `max_depth` attribute to
`'unlimited'` not only when `max_depth` is `None` but also when it is `0`,
because `str(max_depth) if max_depth else 'unlimited'` tests truthiness;
any other depth is rendered as its decimal text. -/
theorem c10_xml_max_depth_zero_unlimited :
    saveTreeXmlMaxDepthAttr (some 0) = "unlimited" ∧
    saveTreeXmlMaxDepthAttr none = "unlimited" ∧
    (∀ d : Nat, saveTreeXmlMaxDepthAttr (some (d + 1)) = toString (d + 1)) := by
  refine ⟨rfl, rfl, fun d => ?_⟩
  simp [saveTreeXmlMaxDepthAttr]

/-- C3, counterexample: a walk whose root path does not exist does NOT
fail for the JSON entry point: `save_tree_json` produces a complete
document whose root node has size 0, modified 0, and a single
`Permission denied` error child — nodes are created and a result is
produced, contradicting the claim that every output format's walk fails
with `PathNotFound` before any node is created. -/
theorem c3_counterexample :
    saveTreeJson "g" "missing" "/missing" none none =
      JVal.obj [("name", .str "missing"), ("path", .str "/missing"),
        ("type", .str "directory"), ("size", .num 0), ("modified", .num 0),
        ("children", .arr [.obj [("error", .str "Permission denied")]]),
        ("metadata", .obj [("generated", .str "g"),
          ("source_path", .str "/missing"), ("max_depth", .jnull)])] := by
  simp [saveTreeJson, saveTreeJsonDoc, directoryToDictMissing, depthLimited,
    jnodeToJVal, jlistToJVal, optNatToJVal]

/-- C3 (amended): the basic and ascii entry points check the root first
and fail with `FileNotFoundError` before any node is created; but the
JSON/XML entry point never checks — `directory_to_dict` on a missing root
builds a directory node with `modified` 0 whose children are a single
`Permission denied` marker (or an empty list when `max_depth` is 0), and
a complete document is produced. -/
theorem c3_root_not_found_amended :
    (∀ md, generateDirectoryTree none md = .error "Directory not found") ∧
    (∀ fmt sh md, generateAsciiTree fmt none sh md = .error "Directory not found") ∧
    (∀ n p, directoryToDictMissing n p none = .dir n p 0 0 [.errMarker]) ∧
    (∀ n p, directoryToDictMissing n p (some 0) = .dir n p 0 0 []) ∧
    (∀ g pn sp md, saveTreeJson g pn sp none md =
      saveTreeJsonDoc g sp md (directoryToDictMissing pn sp md)) := by
  refine ⟨fun _ => rfl, fun _ _ _ => rfl, fun n p => ?_, fun n p => ?_, fun _ _ _ _ => rfl⟩
  · simp [directoryToDictMissing, depthLimited]
  · simp [directoryToDictMissing, depthLimited]

theorem walkDirectory_unlimited :
    ∀ (l : Option (List FS)) (pfx : String) (d : Nat) (md : Option Nat), md = none →
      ∀ d', walkDirectory l pfx d md = walkDirectory l pfx d' md := by
  have H := walkDirectory.induct
    (fun l pfx d md => md = none → ∀ d', walkDirectory l pfx d md = walkDirectory l pfx d' md)
    (fun items pfx d md => md = none → ∀ d', walkItems items pfx d md = walkItems items pfx d' md)
  apply H
  · intro l pfx depth md h hmd d'
    subst hmd
    simp [depthExceeded] at h
  · intro pfx depth md h hmd d'
    subst hmd
    rw [walkDirectory, walkDirectory]
    simp [depthExceeded]
  · intro pfx depth md h items ih hmd d'
    subst hmd
    rw [walkDirectory, walkDirectory]
    simp only [depthExceeded, if_false]
    exact ih rfl d'
  · intro pfx depth md hmd d'
    rw [walkItems, walkItems]
  · intro pfx depth md n m l rest ih1 ih2 hmd d'
    subst hmd
    simp only [dite_eq_ite] at ih1
    rw [walkItems, walkItems, ih1 trivial (d' + 1), ih2 rfl d']
  · intro pfx depth md n st rest ih hmd d'
    subst hmd
    rw [walkItems, walkItems, ih rfl d']

theorem directoryToDict_unlimited :
    ∀ (n : String) (m : Nat) (l : Option (List FS)) (p : String) (md : Option Nat)
      (cd : Nat), md = none → ∀ cd',
      directoryToDict n m l p md cd = directoryToDict n m l p md cd' := by
  have H := directoryToDict.induct
    (fun n m l p md cd => md = none → ∀ cd',
      directoryToDict n m l p md cd = directoryToDict n m l p md cd')
    (fun items p md cd => md = none → ∀ cd',
      dtdChildren items p md cd = dtdChildren items p md cd')
  apply H
  · intro n m l p md cd h hmd cd'
    subst hmd
    simp [depthLimited] at h
  · intro n m p md cd h hmd cd'
    subst hmd
    rw [directoryToDict, directoryToDict]
    simp [depthLimited]
  · intro n m p md cd h items ih hmd cd'
    subst hmd
    rw [directoryToDict, directoryToDict]
    simp only [depthLimited, if_false]
    rw [ih rfl cd']
  · intro p md cd hmd cd'
    rw [dtdChildren.eq_def, dtdChildren.eq_def]
  · intro p md cd item rest ih1 ih2 hmd cd'
    subst hmd
    rw [dtdChildren.eq_def, dtdChildren.eq_def]
    simp only
    rw [ih2 rfl cd']
    cases item with
    | dir n m l =>
      have e : directoryToDict n m l (p ++ "/" ++ n) none (cd + 1)
          = directoryToDict n m l (p ++ "/" ++ n) none (cd' + 1) := by
        first
        | exact ih1 trivial (cd' + 1)
        | exact ih1 rfl (cd' + 1)
        | exact (by simpa using ih1) (cd' + 1)
      simp only [e]
    | file n st => cases st <;> rfl

theorem walkItems_at_limit (items : List FS) (pfx : String) (dd : Nat) :
    walkItems items pfx dd (some dd) = basicLevelLines pfx items := by
  induction items with
  | nil => rw [walkItems, basicLevelLines]
  | cons item rest ih =>
    cases item with
    | dir n m l =>
      have hsub : walkDirectory l (pfx ++ if rest.isEmpty = true then "    " else "│   ")
          (dd + 1) (some dd) = [] := by
        rw [walkDirectory.eq_def]
        simp [depthExceeded]
      rw [walkItems, basicLevelLines]
      simp [hsub, FS.name, ih]
    | file n st =>
      rw [walkItems, basicLevelLines]
      simp [FS.name, ih]

/-- C2, counterexample: in the JSON walk (`directory_to_dict`), with
`max_depth = 0` the root's direct children are NOT visited, and the
truncation leaves no marker: a root with a populated subdirectory and a
genuinely empty root produce identical trees (`children = []`),
contradicting both "with d = 0 the root's direct children are still
visited" and "nodes beyond the limit are replaced by a truncated marker
rather than omitted silently". -/
theorem c2_counterexample :
    directoryToDict "root" 7 (some [FS.dir "b" 0 (some [FS.file "c" (some (5, 1))])])
        "/r" (some 0) 0 = JNode.dir "root" "/r" 0 7 [] ∧
    directoryToDict "root" 7 (some []) "/r" (some 0) 0 = JNode.dir "root" "/r" 0 7 [] := by
  constructor <;> simp [directoryToDict, depthLimited]

/-- C2 (amended): `maxDepth = None` means unlimited in every walk (the
depth counter is then irrelevant).  With `maxDepth = d`: the basic walk
still lists a directory reached at depth `d` — so `d = 0` still visits the
root's direct children — but deeper nodes are omitted silently with no
marker; the rich walk substitutes an explicit `... (depth limited)` marker
for a listing reached at depth `d`, so `d = 0` does not visit the root's
children; the JSON walk (`directory_to_dict`) truncates a directory
reached at depth `d` to `children = []` with no marker, so `d = 0` does
not visit the root's children either. -/
theorem c2_max_depth_amended :
    (∀ (l : Option (List FS)) (pfx : String) (d d' : Nat),
      walkDirectory l pfx d none = walkDirectory l pfx d' none) ∧
    (∀ (n : String) (m : Nat) (l : Option (List FS)) (p : String) (cd cd' : Nat),
      directoryToDict n m l p none cd = directoryToDict n m l p none cd') ∧
    (∀ (items : List FS) (pfx : String) (dd : Nat),
      walkDirectory (some items) pfx dd (some dd) =
        basicLevelLines pfx (sortBy nameLe items)) ∧
    (∀ (l : Option (List FS)) (d : Nat), richBuild (some d) l d = [RNode.depthLimitedMarker]) ∧
    (∀ (n : String) (m : Nat) (l : Option (List FS)) (p : String) (d : Nat),
      directoryToDict n m l p (some d) d = JNode.dir n p 0 m []) := by
  refine ⟨fun l pfx d d' => walkDirectory_unlimited l pfx d none rfl d',
    fun n m l p cd cd' => directoryToDict_unlimited n m l p none cd rfl cd',
    fun items pfx dd => ?_, fun l d => ?_, fun n m l p d => ?_⟩
  · rw [walkDirectory.eq_def]
    simp [depthExceeded, walkItems_at_limit]
  · rw [richBuild.eq_def]
    simp [depthLimited]
  · rw [directoryToDict.eq_def]
    simp [depthLimited]

theorem dtd_jkey (n : String) (m : Nat) (l : Option (List FS)) (p : String)
    (md : Option Nat) (cd : Nat) :
    jkey (directoryToDict n m l p md cd) = (false, pyLower n) := by
  rw [directoryToDict.eq_def]
  split
  · rfl
  · split <;> rfl

theorem dtdChildren_keys (items : List FS) (p : String) (md : Option Nat) (cd : Nat) :
    ((dtdChildren items p md cd).1).map jkey = items.map keyOf := by
  induction items with
  | nil => rw [dtdChildren.eq_def]; rfl
  | cons item rest ih =>
    rw [dtdChildren.eq_def]
    cases item with
    | dir n m l => simp [dtd_jkey, keyOf, FS.isDir, FS.name, ih]
    | file n st =>
      cases st <;> simp [jkey, keyOf, FS.isDir, FS.name, ih]

theorem pairwise_of_map_keys {α β K : Type} {l1 : List α} {l2 : List β}
    (f : α → K) (g : β → K) (R : K → K → Bool) (h : l2.map g = l1.map f)
    (hp : List.Pairwise (fun a b => R (f a) (f b) = true) l1) :
    List.Pairwise (fun a b => R (g a) (g b) = true) l2 := by
  have h1 : List.Pairwise (fun x y => R x y = true) (l1.map f) :=
    List.pairwise_map.mpr hp
  rw [← h] at h1
  exact List.pairwise_map.mp h1

theorem sortBy_dirsFirst_pairwise (l : List FS) :
    List.Pairwise (fun a b => dirsFirstLe a b = true) (sortBy dirsFirstLe l) :=
  sortBy_pairwise dirsFirstLe_total (fun h1 h2 => dirsFirstLe_trans h1 h2) l

theorem dtdChildren_pairwise (items : List FS) (p : String) (md : Option Nat) (cd : Nat) :
    List.Pairwise (fun a b => jLe a b = true)
      (dtdChildren (sortBy dirsFirstLe items) p md cd).1 := by
  have hk := dtdChildren_keys (sortBy dirsFirstLe items) p md cd
  have hp := sortBy_dirsFirst_pairwise items
  have hp' : List.Pairwise (fun a b => keyLe (keyOf a) (keyOf b) = true)
      (sortBy dirsFirstLe items) := hp
  exact pairwise_of_map_keys keyOf jkey keyLe hk hp'

theorem jchildrenLists_sorted :
    ∀ (n : String) (m : Nat) (l : Option (List FS)) (p : String) (md : Option Nat)
      (cd : Nat), ∀ cl ∈ jchildrenLists (directoryToDict n m l p md cd),
      List.Pairwise (fun a b => jLe a b = true) cl := by
  have H := directoryToDict.induct
    (fun n m l p md cd => ∀ cl ∈ jchildrenLists (directoryToDict n m l p md cd),
      List.Pairwise (fun a b => jLe a b = true) cl)
    (fun items p md cd => ∀ cl ∈ jchildrenListsL (dtdChildren items p md cd).1,
      List.Pairwise (fun a b => jLe a b = true) cl)
  apply H
  · intro n m l p md cd h cl hcl
    rw [directoryToDict.eq_def] at hcl
    simp only [h, if_true] at hcl
    simp [jchildrenLists, jchildrenListsL] at hcl
    simp [hcl]
  · intro n m p md cd h cl hcl
    rw [directoryToDict.eq_def] at hcl
    simp only [h, if_false] at hcl
    simp [jchildrenLists, jchildrenListsL] at hcl
    simp [hcl]
  · intro n m p md cd h items ih cl hcl
    rw [directoryToDict.eq_def] at hcl
    simp only [h, if_false] at hcl
    simp only [jchildrenLists] at hcl
    cases hcl with
    | head => exact dtdChildren_pairwise items p md cd
    | tail _ h => exact ih cl h
  · intro p md cd cl hcl
    rw [dtdChildren.eq_def] at hcl
    simp [jchildrenListsL] at hcl
  · intro p md cd item rest ih1 ih2 cl hcl
    rw [dtdChildren.eq_def] at hcl
    cases item with
    | dir n m l =>
      simp only at ih1
      simp only [jchildrenListsL, List.singleton_append, List.mem_append] at hcl
      rcases List.mem_append.mp (by simpa [jchildrenListsL] using hcl) with hcl | hcl
      · exact ih1 cl hcl
      · exact ih2 cl hcl
    | file n st =>
      cases st with
      | some s =>
        simp only [jchildrenListsL, List.singleton_append] at hcl
        rcases (by simpa [jchildrenListsL, jchildrenLists] using hcl :
            cl ∈ jchildrenListsL (dtdChildren rest p md cd).1) with hcl'
        exact ih2 cl hcl'
      | none =>
        simp only [jchildrenListsL, List.singleton_append] at hcl
        rcases (by simpa [jchildrenListsL, jchildrenLists] using hcl :
            cl ∈ jchildrenListsL (dtdChildren rest p md cd).1) with hcl'
        exact ih2 cl hcl'

/-- C5, counterexample: the basic format's walk sorts with plain
`sorted(items)` (code-point order on names, directories NOT first): with a
file `a` and a directory `b` as siblings, the rendered output lists the
file `a` before the directory `b`, so the
directories-first/case-insensitive ordering does not apply to the default
walk of every output format. -/
theorem c5_counterexample :
    walkDirectory (some [FS.file "a" (some (1, 0)), FS.dir "b" 0 (some [])]) "" 0 none
      = ["├── a", "└── b"] ∧
    sortBy nameLe [FS.file "a" (some (1, 0)), FS.dir "b" 0 (some [])]
      = [FS.file "a" (some (1, 0)), FS.dir "b" 0 (some [])] := by
  constructor
  · simp [walkDirectory, walkItems, sortBy, insertBy, nameLe, pyStrLe, pyStrLt,
      depthExceeded, FS.name]
  · simp [sortBy, insertBy, nameLe, pyStrLe, pyStrLt, FS.name]

/-- C5 (amended): in the JSON walk every `children` list is ordered with
directories before files and case-insensitively nondecreasing names within
each kind, and the ascii, detailed and rich walks sort every sibling list
with the same directories-first/case-insensitive key; the basic format,
however, sorts siblings by plain code-point name order without putting
directories first. -/
theorem c5_sibling_ordering_amended :
    (∀ (n : String) (m : Nat) (l : Option (List FS)) (p : String) (md : Option Nat)
      (cd : Nat), ∀ cl ∈ jchildrenLists (directoryToDict n m l p md cd),
      List.Pairwise (fun a b => jLe a b = true) cl) ∧
    (∀ l : List FS,
      List.Pairwise (fun a b => dirsFirstLe a b = true) (sortBy dirsFirstLe l)) :=
  ⟨jchildrenLists_sorted, sortBy_dirsFirst_pairwise⟩

/-- C5, witness: the ordered-children property applied to a concrete walk
whose root holds a file `b` and a directory `A`: the produced children
list puts the directory first and is pairwise ordered. -/
theorem c5_witness :
    ([JNode.dir "A" "/r/A" 0 0 [], JNode.file "b" "/r/b" 1 0] ∈
      jchildrenLists (directoryToDict "r" 0
        (some [FS.file "b" (some (1, 0)), FS.dir "A" 0 (some [])]) "/r" none 0)) ∧
    List.Pairwise (fun a b => jLe a b = true)
      [JNode.dir "A" "/r/A" 0 0 [], JNode.file "b" "/r/b" 1 0] := by
  have hmem : [JNode.dir "A" "/r/A" 0 0 [], JNode.file "b" "/r/b" 1 0] ∈
      jchildrenLists (directoryToDict "r" 0
        (some [FS.file "b" (some (1, 0)), FS.dir "A" 0 (some [])]) "/r" none 0) := by
    simp [directoryToDict, dtdChildren, jchildrenLists, jchildrenListsL, sortBy,
      insertBy, dirsFirstLe, keyLe, keyOf, pyLower, pyStrLe, pyStrLt, depthLimited,
      jsize, FS.isDir, FS.name]
  exact ⟨hmem, c5_sibling_ordering_amended.1 "r" 0 _ "/r" none 0 _ hmem⟩

theorem walkItems_append (xs ys : List FS) (pfx : String) (d : Nat)
    (md : Option Nat) (hys : ys ≠ []) :
    walkItems (xs ++ ys) pfx d md =
      (xs.map (basicItemLines pfx d md false)).flatten ++ walkItems ys pfx d md := by
  induction xs with
  | nil => simp
  | cons x xs ih =>
    have hne : (xs ++ ys).isEmpty = false := by
      cases ys with
      | nil => exact absurd rfl hys
      | cons y ys => cases xs <;> rfl
    cases x with
    | dir n m l =>
      rw [List.cons_append, walkItems, ih]
      simp [basicItemLines, hne, FS.name]
    | file n st =>
      rw [List.cons_append, walkItems, ih]
      simp [basicItemLines, hne, FS.name]

theorem m2Items_append (md : Option Nat) (cd : Nat) (xs ys : List FS)
    (hok : ∀ x ∈ xs, m2Ok x = true) :
    m2Items md (xs ++ ys) cd = xs.map (m2ItemNode md cd) ++ m2Items md ys cd := by
  induction xs with
  | nil => simp
  | cons x xs ih =>
    cases x with
    | dir n m l =>
      rw [List.cons_append, m2Items]
      simp only [List.map_cons, List.cons_append, m2ItemNode]
      rw [ih (fun x hx => hok x (List.mem_cons_of_mem _ hx))]
    | file n st =>
      cases st with
      | some s =>
        rw [List.cons_append, m2Items]
        simp only [List.map_cons, List.cons_append, m2ItemNode]
        rw [ih (fun x hx => hok x (List.mem_cons_of_mem _ hx))]
      | none => exact absurd (hok _ (List.mem_cons_self _ _)) (by simp [m2Ok])

/-- C6, counterexample: in the method-2 rich walk, a single file whose
stat fails wipes out its remaining siblings: with siblings `a` (stat
fails) and `b` (fine), only a `[Permission Denied]` node is produced and
no node for `b` appears, although walking `b` alone produces its node —
so a per-entry access failure is not recovered locally and traversal of an
unrelated sibling branch IS affected. -/
theorem c6_counterexample :
    m2Build none (some [FS.file "a" none, FS.file "b" (some (3, 0))]) 0
      = [RNode.deniedMarker] ∧
    m2Build none (some [FS.file "b" (some (3, 0))]) 0 = [RNode.fileNode "b"] := by
  constructor <;>
    simp [m2Build, m2Items, sortBy, insertBy, dirsFirstLe, keyLe, keyOf, pyLower,
      pyStrLe, pyStrLt, depthLimited, FS.isDir, FS.name]

/-- C6 (amended): in the basic walk the property holds — the output is a
concatenation of independent per-entry blocks, an unreadable directory
contributes exactly its own line plus a single `[Permission Denied]` line
and no children, and the walk continues with the siblings unaffected; the
method-2 rich walk likewise recovers a listing denial as a single
`[Permission Denied]` node, but a per-file stat failure there is caught
only by the enclosing directory's handler: the entries before it are kept,
one `[Permission Denied]` node is emitted, and the remaining entries of
that listing are dropped (the walk itself still completes). -/
theorem c6_failure_recovery_amended :
    (∀ (xs ys : List FS) (pfx : String) (d : Nat) (md : Option Nat), ys ≠ [] →
      walkItems (xs ++ ys) pfx d md =
        (xs.map (basicItemLines pfx d md false)).flatten ++ walkItems ys pfx d md) ∧
    (∀ (pfx : String) (d : Nat) (md : Option Nat) (isLast : Bool) (n : String) (m : Nat),
      depthExceeded md (d + 1) = false →
      basicItemLines pfx d md isLast (.dir n m none) =
        [pfx ++ (if isLast then "└── " else "├── ") ++ n,
         pfx ++ (if isLast then "    " else "│   ") ++ "└── [Permission Denied]"]) ∧
    (∀ (md : Option Nat) (cd : Nat), depthLimited md cd = false →
      m2Build md none cd = [RNode.deniedMarker]) ∧
    (∀ (md : Option Nat) (cd : Nat) (xs ys : List FS), (∀ x ∈ xs, m2Ok x = true) →
      m2Items md (xs ++ ys) cd = xs.map (m2ItemNode md cd) ++ m2Items md ys cd) ∧
    (∀ (md : Option Nat) (cd : Nat) (n : String) (rest : List FS),
      m2Items md (.file n none :: rest) cd = [RNode.deniedMarker]) := by
  refine ⟨walkItems_append, fun pfx d md isLast n m hd => ?_, fun md cd hd => ?_,
    m2Items_append, fun md cd n rest => ?_⟩
  · rw [basicItemLines]
    rw [show walkDirectory none (pfx ++ if isLast then "    " else "│   ") (d + 1) md
        = [(pfx ++ if isLast then "    " else "│   ") ++ "└── [Permission Denied]"] by
      rw [walkDirectory.eq_def]; simp [hd]]
    simp [FS.name]
  · rw [m2Build.eq_def]
    simp [hd]
  · rw [m2Items.eq_def]

/-- C6, witness: the amended properties applied at concrete inputs — the
basic walk's per-entry decomposition with a trailing entry present, the
two-line permission-denied block of an unreadable directory, and the
method-2 walk keeping the entries that precede a failing file. -/
theorem c6_witness :
    walkItems ([FS.file "a" (some (1, 0))] ++ [FS.dir "bad" 0 none]) "" 0 none
      = ([FS.file "a" (some (1, 0))].map (basicItemLines "" 0 none false)).flatten
        ++ walkItems [FS.dir "bad" 0 none] "" 0 none ∧
    basicItemLines "" 0 none true (FS.dir "bad" 0 none)
      = ["" ++ (if true then "└── " else "├── ") ++ "bad",
         "" ++ (if true then "    " else "│   ") ++ "└── [Permission Denied]"] ∧
    m2Items none ([FS.file "b" (some (1, 0))] ++ [FS.file "a" none]) 0
      = [FS.file "b" (some (1, 0))].map (m2ItemNode none 0)
        ++ m2Items none [FS.file "a" none] 0 :=
  ⟨c6_failure_recovery_amended.1 _ _ "" 0 none (by simp),
   c6_failure_recovery_amended.2.1 "" 0 none true "bad" 0 rfl,
   c6_failure_recovery_amended.2.2.2.1 none 0 _ _
     (by intro x hx; simp at hx; subst hx; rfl)⟩

theorem pfxOfFlags_append (flags : List Bool) (b : Bool) :
    pfxOfFlags (flags ++ [b]) = pfxOfFlags flags ++ (if b then "    " else "│   ") := by
  induction flags with
  | nil => simp [pfxOfFlags]
  | cons f fs ih => simp [pfxOfFlags, ih, String.append_assoc]

theorem basicPrefixLaw :
    ∀ (l : Option (List FS)) (pfx : String) (d : Nat) (md : Option Nat)
      (flags : List Bool), pfx = pfxOfFlags flags →
      walkDirectory l pfx d md = specWalkDir l flags d md := by
  have H := walkDirectory.induct
    (fun l pfx d md => ∀ flags, pfx = pfxOfFlags flags →
      walkDirectory l pfx d md = specWalkDir l flags d md)
    (fun items pfx d md => ∀ flags, pfx = pfxOfFlags flags →
      walkItems items pfx d md = specWalkItems items flags d md)
  intro l pfx d md flags hp
  refine H ?_ ?_ ?_ ?_ ?_ ?_ l pfx d md flags hp
  · intro l2 pfx depth md h flags hp
    rw [walkDirectory.eq_def, specWalkDir.eq_def]
    simp [h]
  · intro pfx depth md h flags hp
    subst hp
    rw [walkDirectory.eq_def, specWalkDir.eq_def]
  · intro pfx depth md h items ih flags hp
    subst hp
    rw [walkDirectory.eq_def, specWalkDir.eq_def]
    simp only [h, if_false]
    exact ih flags rfl
  · intro pfx depth md flags hp
    rw [walkItems, specWalkItems]
  · intro pfx depth md n m l rest ih1 ih2 flags hp
    subst hp
    simp only [dite_eq_ite] at ih1
    rw [walkItems, specWalkItems,
      ih1 (flags ++ [rest.isEmpty]) (pfxOfFlags_append flags rest.isEmpty).symm,
      ih2 flags rfl]
  · intro pfx depth md n st rest ih flags hp
    subst hp
    rw [walkItems, specWalkItems, ih flags rfl]

/-- C7, counterexample: in the ascii renderer the connector is NOT
determined by being the last sibling: with two files `a`, `b` at the root
(root call has `is_last=True`), the first entry gets the corner glyph and
the actual last sibling `b` gets four spaces — no corner, no tee. -/
theorem c7_counterexample :
    (asciiBuild (fun _ => "") true none
      (some [FS.file "a" (some (1, 0)), FS.file "b" (some (2, 0))]) "" true 0).lines
      = ["└── [F] a (1 B)", "    [F] b (2 B)"] := by
  simp [asciiBuild, asciiItems, sortBy, insertBy, dirsFirstLe, keyLe, keyOf, pyLower,
    pyStrLe, pyStrLt, depthExceeded, hiddenFilter, asciiConnector, asciiSizeStr,
    fileStep, FS.isDir, FS.name]
  constructor <;> decide

/-- C7 (amended): the connector/prefix law holds for the basic renderer:
its walk equals a reference renderer that derives everything from the
ancestors' last-sibling flags — corner glyph exactly for a last sibling,
tee otherwise, and the prefix at depth d is the concatenation, over the
ancestors, of four spaces for a last sibling and vertical-bar-and-spaces
otherwise.  In the ascii/detailed renderers the rule is different: every
entry other than the first of its listing gets four spaces or a bar as its
"connector" (depending on the parent's last-flag), never a corner or tee. -/
theorem c7_prefix_law_amended :
    (∀ (l : Option (List FS)) (flags : List Bool) (d : Nat) (md : Option Nat),
      walkDirectory l (pfxOfFlags flags) d md = specWalkDir l flags d md) ∧
    (∀ (l : Option (List FS)) (d : Nat) (md : Option Nat),
      walkDirectory l "" d md = specWalkDir l [] d md) ∧
    (∀ (i : Nat) (isLast : Bool), 0 < i →
      asciiConnector i isLast = (if isLast then "    " else "│   ")) := by
  refine ⟨fun l flags d md => basicPrefixLaw l _ d md flags rfl,
    fun l d md => basicPrefixLaw l _ d md [] rfl, fun i isLast hi => ?_⟩
  have : (i == 0) = false := by
    cases i with
    | zero => omega
    | succ k => rfl
  simp [asciiConnector, this]

/-- C7, witness: the prefix law applied at a concrete input — an ancestor
chain `[false, true]` renders the prefix bar-then-spaces — and the ascii
divergence at the second entry of a listing. -/
theorem c7_witness :
    walkDirectory (some [FS.file "x" (some (1, 0))]) (pfxOfFlags [false, true]) 2 none
      = specWalkDir (some [FS.file "x" (some (1, 0))]) [false, true] 2 none ∧
    (0 < 1 → asciiConnector 1 true = (if true then "    " else "│   ")) ∧
    asciiConnector 1 true = "    " :=
  ⟨c7_prefix_law_amended.1 _ [false, true] 2 none,
   fun h => c7_prefix_law_amended.2.2 1 true h, rfl⟩

theorem totalsL_perm (sh : Bool) {l1 l2 : List FS} (h : l1.Perm l2) :
    totalsL sh l1 = totalsL sh l2 := by
  induction h with
  | nil => rfl
  | cons x _ ih => rw [totalsL, totalsL, ih]
  | swap x y l =>
    rw [totalsL, totalsL, totalsL, totalsL]
    simp [addT]
    refine ⟨by omega, by omega, by omega⟩
  | trans _ _ ih1 ih2 => rw [ih1, ih2]

theorem totalsF_dir (sh : Bool) (n : String) (m : Nat) (l : Option (List FS)) :
    totalsF sh (.dir n m l) = addT (1, 0, 0) (totalsO sh l) := by
  cases l with
  | none => rw [totalsF.eq_def, totalsO]; simp [addT]
  | some items => rw [totalsF.eq_def, totalsO]

theorem ascii_totals (fmt : Nat → String) (sh : Bool) :
    ∀ (l : Option (List FS)) (pfx : String) (isLast : Bool) (d : Nat),
      ((asciiBuild fmt sh none l pfx isLast d).dirs,
       (asciiBuild fmt sh none l pfx isLast d).files,
       (asciiBuild fmt sh none l pfx isLast d).size) = totalsO sh l := by
  have H := asciiBuild.induct fmt sh none
    (fun l pfx isLast d =>
      ((asciiBuild fmt sh none l pfx isLast d).dirs,
       (asciiBuild fmt sh none l pfx isLast d).files,
       (asciiBuild fmt sh none l pfx isLast d).size) = totalsO sh l)
    (fun items pfx isLast d i =>
      ((asciiItems fmt sh none items pfx isLast d i).dirs,
       (asciiItems fmt sh none items pfx isLast d i).files,
       (asciiItems fmt sh none items pfx isLast d i).size) = totalsL sh items)
  apply H
  · intro l pfx isLast d h
    simp [depthExceeded] at h
  · intro pfx isLast d h
    rw [asciiBuild.eq_def]
    simp [depthExceeded, totalsO]
  · intro pfx isLast d h items ih
    rw [asciiBuild.eq_def]
    simp only [depthExceeded, Bool.false_eq_true, if_false]
    rw [ih, totalsO,
      totalsL_perm sh (sortBy_perm dirsFirstLe (hiddenFilter sh items))]
  · intro pfx isLast d i
    rw [asciiItems.eq_def, totalsL]
  · intro pfx isLast d i n m l rest ih1 ih2
    rw [asciiItems.eq_def, totalsL, totalsF_dir]
    simp only [dirStep, addT] at ih1 ih2 ⊢
    have e1 := congrArg Prod.fst ih1
    have e2 := congrArg (fun t => t.2.1) ih1
    have e3 := congrArg (fun t => t.2.2) ih1
    have f1 := congrArg Prod.fst ih2
    have f2 := congrArg (fun t => t.2.1) ih2
    have f3 := congrArg (fun t => t.2.2) ih2
    simp at e1 e2 e3 f1 f2 f3
    refine Prod.ext ?_ (Prod.ext ?_ ?_) <;> simp <;> omega
  · intro pfx isLast d i n st rest ih
    rw [asciiItems.eq_def, totalsL, totalsF.eq_def]
    have f1 := congrArg Prod.fst ih
    have f2 := congrArg (fun t => t.2.1) ih
    have f3 := congrArg (fun t => t.2.2) ih
    simp at f1 f2 f3
    cases st with
    | some s =>
      simp only [fileStep, addT]
      refine Prod.ext ?_ (Prod.ext ?_ ?_) <;> simp <;> omega
    | none =>
      simp only [fileStep, addT]
      refine Prod.ext ?_ (Prod.ext ?_ ?_) <;> simp <;> omega

theorem detailed_totals (fmt : Nat → String) (sh : Bool) :
    ∀ (l : Option (List FS)) (pfx : String) (isLast : Bool) (d : Nat),
      ((detailedBuild fmt sh none l pfx isLast d).dirs,
       (detailedBuild fmt sh none l pfx isLast d).files,
       (detailedBuild fmt sh none l pfx isLast d).size) = totalsO sh l := by
  have H := detailedBuild.induct fmt sh none
    (fun l pfx isLast d =>
      ((detailedBuild fmt sh none l pfx isLast d).dirs,
       (detailedBuild fmt sh none l pfx isLast d).files,
       (detailedBuild fmt sh none l pfx isLast d).size) = totalsO sh l)
    (fun items pfx isLast d i =>
      ((detailedItems fmt sh none items pfx isLast d i).dirs,
       (detailedItems fmt sh none items pfx isLast d i).files,
       (detailedItems fmt sh none items pfx isLast d i).size) = totalsL sh items)
  apply H
  · intro l pfx isLast d h
    simp [depthExceeded] at h
  · intro pfx isLast d h
    rw [detailedBuild.eq_def]
    simp [depthExceeded, totalsO]
  · intro pfx isLast d h items ih
    rw [detailedBuild.eq_def]
    simp only [depthExceeded, Bool.false_eq_true, if_false]
    rw [ih, totalsO,
      totalsL_perm sh (sortBy_perm dirsFirstLe (hiddenFilter sh items))]
  · intro pfx isLast d i
    rw [detailedItems.eq_def, totalsL]
  · intro pfx isLast d i n m l rest ih1 ih2
    rw [detailedItems.eq_def, totalsL, totalsF_dir]
    simp only [dirStep, addT] at ih1 ih2 ⊢
    have e1 := congrArg Prod.fst ih1
    have e2 := congrArg (fun t => t.2.1) ih1
    have e3 := congrArg (fun t => t.2.2) ih1
    have f1 := congrArg Prod.fst ih2
    have f2 := congrArg (fun t => t.2.1) ih2
    have f3 := congrArg (fun t => t.2.2) ih2
    simp at e1 e2 e3 f1 f2 f3
    refine Prod.ext ?_ (Prod.ext ?_ ?_) <;> simp <;> omega
  · intro pfx isLast d i n st rest ih
    rw [detailedItems.eq_def, totalsL, totalsF.eq_def]
    have f1 := congrArg Prod.fst ih
    have f2 := congrArg (fun t => t.2.1) ih
    have f3 := congrArg (fun t => t.2.2) ih
    simp at f1 f2 f3
    cases st with
    | some s =>
      simp only [fileStep, addT]
      refine Prod.ext ?_ (Prod.ext ?_ ?_) <;> simp <;> omega
    | none =>
      simp only [fileStep, addT]
      refine Prod.ext ?_ (Prod.ext ?_ ?_) <;> simp <;> omega

theorem dtd_size :
    ∀ (n : String) (m : Nat) (l : Option (List FS)) (p : String) (cd : Nat),
      jsize (directoryToDict n m l p none cd) = (totalsO true l).2.2 := by
  have H := directoryToDict.induct
    (fun n m l p md cd => md = none →
      jsize (directoryToDict n m l p md cd) = (totalsO true l).2.2)
    (fun items p md cd => md = none →
      (dtdChildren items p md cd).2 = (totalsL true items).2.2)
  intro n m l p cd
  refine H ?_ ?_ ?_ ?_ ?_ n m l p none cd rfl
  · intro n m l p md cd h hmd
    subst hmd
    simp [depthLimited] at h
  · intro n m p md cd h hmd
    rw [directoryToDict.eq_def]
    simp [depthLimited, hmd, totalsO, jsize, hiddenFilter, totalsL]
  · intro n m p md cd h items ih hmd
    subst hmd
    rw [directoryToDict.eq_def]
    simp only [depthLimited, Bool.false_eq_true, if_false, jsize]
    rw [ih rfl, totalsO]
    simp only [hiddenFilter, if_true]
    rw [totalsL_perm true (sortBy_perm dirsFirstLe items)]
  · intro p md cd hmd
    rw [dtdChildren.eq_def, totalsL]
  · intro p md cd item rest ih1 ih2 hmd
    subst hmd
    rw [dtdChildren.eq_def, totalsL]
    cases item with
    | dir nn mm ll =>
      simp only at ih1
      simp only [totalsF_dir, addT]
      have h2 := ih2 rfl
      have h1 := ih1 trivial
      simp only [jsize] at h1 ⊢
      simp
      omega
    | file nn st =>
      have h2 := ih2 rfl
      cases st with
      | some s =>
        rw [totalsF.eq_def]
        simp [addT, h2]
      | none =>
        rw [totalsF.eq_def]
        simp [addT, h2]

theorem dtd_sizeInv :
    ∀ (n : String) (m : Nat) (l : Option (List FS)) (p : String) (md : Option Nat)
      (cd : Nat), sizeInvB (directoryToDict n m l p md cd) = true := by
  have H := directoryToDict.induct
    (fun n m l p md cd => sizeInvB (directoryToDict n m l p md cd) = true)
    (fun items p md cd =>
      (dtdChildren items p md cd).2 = sumFilesJL (dtdChildren items p md cd).1 ∧
      sizeInvL (dtdChildren items p md cd).1 = true)
  apply H
  · intro n m l p md cd h
    rw [directoryToDict.eq_def]
    simp [h, sizeInvB, sizeInvL, sumFilesJL]
  · intro n m p md cd h
    rw [directoryToDict.eq_def]
    simp [h, sizeInvB, sizeInvL, sumFilesJL, sumFilesJ]
  · intro n m p md cd h items ih
    rw [directoryToDict.eq_def]
    simp only [h, Bool.false_eq_true, if_false]
    rw [sizeInvB]
    simp [ih.1, ih.2]
  · intro p md cd
    rw [dtdChildren.eq_def]
    simp [sumFilesJL, sizeInvL]
  · intro p md cd item rest ih1 ih2
    rw [dtdChildren.eq_def]
    cases item with
    | dir nn mm ll =>
      simp only at ih1
      constructor
      · simp [sumFilesJL, ih2.1, jsize]
        have : sizeInvB (directoryToDict nn mm ll (p ++ "/" ++ nn) md (cd + 1)) = true :=
          ih1
        generalize hx : directoryToDict nn mm ll (p ++ "/" ++ nn) md (cd + 1) = x at this ⊢
        cases x with
        | dir a b c dd e =>
          rw [sizeInvB] at this
          simp at this
          simp [jsize, sumFilesJ, this.1]
        | file a b c dd => simp [jsize, sumFilesJ]
        | errFile a => simp [jsize, sumFilesJ]
        | errMarker => simp [jsize, sumFilesJ]
      · simp [sizeInvL, ih1, ih2.2]
    | file nn st =>
      cases st with
      | some s =>
        constructor
        · simp [sumFilesJL, sumFilesJ, ih2.1]
        · simp [sizeInvL, sizeInvB, ih2.2]
      | none =>
        constructor
        · simp [sumFilesJL, sumFilesJ, ih2.1]
        · simp [sizeInvL, sizeInvB, ih2.2]

/-- C1: in every tree built by `directory_to_dict`, each directory node's
`size` equals the sum of the sizes of its File-kind descendants reachable
through `children`, inaccessible descendants contributing zero; and the
byte aggregate that the ascii walk accumulates over the same listing
(hidden entries shown, no depth bound) equals the root node's `size`. -/
theorem c1_size_invariant :
    (∀ (n : String) (m : Nat) (l : Option (List FS)) (p : String) (md : Option Nat)
      (cd : Nat), sizeInvB (directoryToDict n m l p md cd) = true) ∧
    (∀ (fmt : Nat → String) (l : Option (List FS)) (pfx : String) (isLast : Bool)
      (d : Nat) (n p : String) (m : Nat) (cd : Nat),
      (asciiBuild fmt true none l pfx isLast d).size =
        jsize (directoryToDict n m l p none cd)) := by
  refine ⟨dtd_sizeInv, fun fmt l pfx isLast d n p m cd => ?_⟩
  have h1 := ascii_totals fmt true l pfx isLast d
  have e := congrArg (fun t => t.2.2) h1
  simp at e
  rw [e, dtd_size]

/-- C9: in `generate_ascii_tree` and `generate_detailed_tree` the file
counter counts every visited file, stat failure or not, while the byte
total sums only stat-successful sizes (`totalsF` counts a failed-stat file
as one file and zero bytes); and a failed-stat file's line carries the
`(access denied)` annotation in the ascii walk but no size annotation at
all in the detailed walk. -/
theorem c9_stat_failure_counting :
    (∀ (fmt : Nat → String) (sh : Bool) (l : Option (List FS)) (pfx : String)
      (isLast : Bool) (d : Nat),
      (asciiBuild fmt sh none l pfx isLast d).files = (totalsO sh l).2.1 ∧
      (asciiBuild fmt sh none l pfx isLast d).size = (totalsO sh l).2.2) ∧
    (∀ (fmt : Nat → String) (sh : Bool) (l : Option (List FS)) (pfx : String)
      (isLast : Bool) (d : Nat),
      (detailedBuild fmt sh none l pfx isLast d).files = (totalsO sh l).2.1 ∧
      (detailedBuild fmt sh none l pfx isLast d).size = (totalsO sh l).2.2) ∧
    (∀ (fmt : Nat → String) (sh : Bool) (md : Option Nat) (n : String) (rest : List FS)
      (pfx : String) (isLast : Bool) (d i : Nat),
      asciiItems fmt sh md (.file n none :: rest) pfx isLast d i =
        fileStep (pfx ++ asciiConnector i isLast ++ "[F] " ++ n ++ " (access denied)") 0
          (asciiItems fmt sh md rest pfx isLast d (i + 1))) ∧
    (∀ (fmt : Nat → String) (sh : Bool) (md : Option Nat) (n : String) (rest : List FS)
      (pfx : String) (isLast : Bool) (d i : Nat),
      detailedItems fmt sh md (.file n none :: rest) pfx isLast d i =
        fileStep (pfx ++ asciiConnector i isLast ++ "📄 " ++ n) 0
          (detailedItems fmt sh md rest pfx isLast d (i + 1))) := by
  refine ⟨fun fmt sh l pfx isLast d => ?_, fun fmt sh l pfx isLast d => ?_,
    fun fmt sh md n rest pfx isLast d i => ?_, fun fmt sh md n rest pfx isLast d i => ?_⟩
  · have h := ascii_totals fmt sh l pfx isLast d
    have e1 := congrArg (fun t => t.2.1) h
    have e2 := congrArg (fun t => t.2.2) h
    simp at e1 e2
    exact ⟨e1, e2⟩
  · have h := detailed_totals fmt sh l pfx isLast d
    have e1 := congrArg (fun t => t.2.1) h
    have e2 := congrArg (fun t => t.2.2) h
    simp at e1 e2
    exact ⟨e1, e2⟩
  · rw [asciiItems.eq_def]
  · rw [detailedItems.eq_def]
    simp

theorem pruneF_name (x : FS) : (pruneF x).name = x.name := by
  cases x with
  | file n st => rfl
  | dir n m l => cases l <;> rfl

theorem pruneF_isDir (x : FS) : (pruneF x).isDir = x.isDir := by
  cases x with
  | file n st => rfl
  | dir n m l => cases l <;> rfl

theorem pruneF_isFile (x : FS) : (pruneF x).isFile = x.isFile := by
  cases x with
  | file n st => rfl
  | dir n m l => cases l <;> rfl

theorem pruneF_dir (n : String) (m : Nat) (l : Option (List FS)) :
    pruneF (.dir n m l) = .dir n m (pruneO l) := by
  cases l <;> rfl

theorem dirsFirstLe_pruneF (a b : FS) :
    dirsFirstLe (pruneF a) (pruneF b) = dirsFirstLe a b := by
  simp [dirsFirstLe, keyOf, pruneF_name, pruneF_isDir]

theorem pruneL_eq (l : List FS) :
    pruneL l = (hiddenFilter false l).map pruneF := by
  induction l with
  | nil => rfl
  | cons x xs ih =>
    rw [pruneL]
    simp only [hiddenFilter, if_false, List.filter_cons] at ih ⊢
    by_cases hx : pyHidden x.name
    · simp [hx, ih]
    · simp [hx, ih]

theorem pruneL_nonhidden (l : List FS) :
    hiddenFilter false (pruneL l) = pruneL l := by
  rw [hiddenFilter, if_neg (by simp)]
  rw [List.filter_eq_self]
  intro x hx
  rw [pruneL_eq] at hx
  rcases List.mem_map.mp hx with ⟨y, hy, rfl⟩
  rw [pruneF_name]
  simp only [hiddenFilter, Bool.false_eq_true, if_false, List.mem_filter] at hy
  simpa using hy.2

theorem countP_pruneL_isFile (l : List FS) :
    (pruneL l).countP FS.isFile = (hiddenFilter false l).countP FS.isFile := by
  rw [pruneL_eq, List.countP_map]
  exact List.countP_congr (fun a _ => by simp [Function.comp, pruneF_isFile])

theorem countP_pruneL_isDir (l : List FS) :
    (pruneL l).countP FS.isDir = (hiddenFilter false l).countP FS.isDir := by
  rw [pruneL_eq, List.countP_map]
  exact List.countP_congr (fun a _ => by simp [Function.comp, pruneF_isDir])

theorem asciiCountInfo_prune (l : Option (List FS)) :
    asciiCountInfo false (pruneO l) = asciiCountInfo false l := by
  cases l with
  | none => rfl
  | some sub =>
    simp only [asciiCountInfo, pruneO, Option.map]
    rw [pruneL_nonhidden, countP_pruneL_isFile, countP_pruneL_isDir]

theorem detailedCountInfo_prune (l : Option (List FS)) :
    detailedCountInfo false (pruneO l) = detailedCountInfo false l := by
  cases l with
  | none => rfl
  | some sub =>
    simp only [detailedCountInfo, pruneO, Option.map]
    rw [pruneL_nonhidden, countP_pruneL_isFile, countP_pruneL_isDir]

theorem sortBy_pruneL (items : List FS) :
    sortBy dirsFirstLe (hiddenFilter false (pruneL items)) =
      (sortBy dirsFirstLe (hiddenFilter false items)).map pruneF := by
  rw [pruneL_nonhidden, pruneL_eq, sortBy_map dirsFirstLe_pruneF]

theorem isEmpty_map (f : α → β) (l : List α) : (l.map f).isEmpty = l.isEmpty := by
  cases l <;> rfl

theorem ascii_prune (fmt : Nat → String) (md : Option Nat) :
    ∀ (l : Option (List FS)) (pfx : String) (isLast : Bool) (d : Nat),
      asciiBuild fmt false md l pfx isLast d =
        asciiBuild fmt false md (pruneO l) pfx isLast d := by
  have H := asciiBuild.induct fmt false md
    (fun l pfx isLast d =>
      asciiBuild fmt false md l pfx isLast d =
        asciiBuild fmt false md (pruneO l) pfx isLast d)
    (fun items pfx isLast d i =>
      asciiItems fmt false md items pfx isLast d i =
        asciiItems fmt false md (items.map pruneF) pfx isLast d i)
  apply H
  · intro l pfx isLast d h
    rw [asciiBuild.eq_def, asciiBuild.eq_def]
    simp [h]
  · intro pfx isLast d h
    rw [asciiBuild.eq_def, asciiBuild.eq_def]
    simp [h, pruneO, Option.map]
  · intro pfx isLast d h items ih
    rw [asciiBuild.eq_def, asciiBuild.eq_def]
    simp only [h, Bool.false_eq_true, if_false, pruneO, Option.map]
    rw [ih, sortBy_pruneL]
  · intro pfx isLast d i
    rw [asciiItems.eq_def, List.map_nil, asciiItems.eq_def]
  · intro pfx isLast d i n m l rest ih1 ih2
    rw [asciiItems.eq_def, List.map_cons, pruneF_dir, asciiItems.eq_def]
    simp only [dite_eq_ite] at ih1
    simp only [ih1, ih2, asciiCountInfo_prune, isEmpty_map]
  · intro pfx isLast d i n st rest ih
    rw [asciiItems.eq_def, List.map_cons, pruneF, asciiItems.eq_def]
    simp only [ih]

theorem detailed_prune (fmt : Nat → String) (md : Option Nat) :
    ∀ (l : Option (List FS)) (pfx : String) (isLast : Bool) (d : Nat),
      detailedBuild fmt false md l pfx isLast d =
        detailedBuild fmt false md (pruneO l) pfx isLast d := by
  have H := detailedBuild.induct fmt false md
    (fun l pfx isLast d =>
      detailedBuild fmt false md l pfx isLast d =
        detailedBuild fmt false md (pruneO l) pfx isLast d)
    (fun items pfx isLast d i =>
      detailedItems fmt false md items pfx isLast d i =
        detailedItems fmt false md (items.map pruneF) pfx isLast d i)
  apply H
  · intro l pfx isLast d h
    rw [detailedBuild.eq_def, detailedBuild.eq_def]
    simp [h]
  · intro pfx isLast d h
    rw [detailedBuild.eq_def, detailedBuild.eq_def]
    simp [h, pruneO, Option.map]
  · intro pfx isLast d h items ih
    rw [detailedBuild.eq_def, detailedBuild.eq_def]
    simp only [h, Bool.false_eq_true, if_false, pruneO, Option.map]
    rw [ih, sortBy_pruneL]
  · intro pfx isLast d i
    rw [detailedItems.eq_def, List.map_nil, detailedItems.eq_def]
  · intro pfx isLast d i n m l rest ih1 ih2
    rw [detailedItems.eq_def, List.map_cons, pruneF_dir, detailedItems.eq_def]
    simp only [dite_eq_ite] at ih1
    simp only [ih1, ih2, detailedCountInfo_prune, isEmpty_map]
  · intro pfx isLast d i n st rest ih
    rw [detailedItems.eq_def, List.map_cons, pruneF, detailedItems.eq_def]
    simp only [ih]

/-- C4, counterexample: the JSON walk has no hidden-file filtering at all:
on a root whose only entry is the hidden file `.h` (7 bytes),
`directory_to_dict` produces a node named `.h` and counts its 7 bytes in
the root's size — a node whose name begins with the hidden marker appears
in the produced tree and contributes to the aggregates even though nothing
in this walk can enable hidden entries. -/
theorem c4_counterexample :
    directoryToDict "r" 0 (some [FS.file ".h" (some (7, 1))]) "/r" none 0
      = JNode.dir "r" "/r" 7 0 [JNode.file ".h" "/r/.h" 7 1] := by
  simp [directoryToDict, dtdChildren, sortBy, insertBy, depthLimited, jsize]

/-- C4 (amended): the ascii and detailed walks with `show_hidden = false`
genuinely exclude hidden entries: their entire output (lines and all three
aggregates) over any listing equals the output over the listing with every
hidden entry removed at every level, and every entry surviving the
per-level filter has a name that does not start with `.`; the basic, rich
and JSON/XML walks have no hidden-file filtering and always include hidden
entries. -/
theorem c4_hidden_excluded_amended :
    (∀ (fmt : Nat → String) (md : Option Nat) (l : Option (List FS)) (pfx : String)
      (isLast : Bool) (d : Nat),
      asciiBuild fmt false md l pfx isLast d =
        asciiBuild fmt false md (pruneO l) pfx isLast d) ∧
    (∀ (fmt : Nat → String) (md : Option Nat) (l : Option (List FS)) (pfx : String)
      (isLast : Bool) (d : Nat),
      detailedBuild fmt false md l pfx isLast d =
        detailedBuild fmt false md (pruneO l) pfx isLast d) ∧
    (∀ l : List FS, (hiddenFilter false l).all (fun x => !pyHidden x.name) = true) := by
  refine ⟨fun fmt md l pfx isLast d => ascii_prune fmt md l pfx isLast d,
    fun fmt md l pfx isLast d => detailed_prune fmt md l pfx isLast d, fun l => ?_⟩
  rw [List.all_eq_true]
  intro x hx
  simp only [hiddenFilter, Bool.false_eq_true, if_false, List.mem_filter] at hx
  exact hx.2
